import Mathlib

/-!
Shallow embedding of the image-to-spreadsheet webhook pipeline
(`app.py`, `image_to_text.py`): the tabular text parser
`convert_to_table`, the delivery ledger (`load_saved_messages`,
`save_message_id`) and the event handler `handle_image_message`.

Python strings are modelled as lists of characters; the external
collaborators (media fetch, vision-model extraction, spreadsheet sink)
are modelled by an environment recording their outcome for the event.
-/

namespace App

/-- A Python string, modelled as its list of characters. -/
abbrev Str := List Char

/-- The whitespace characters removed by Python `str.strip()`
(ASCII subset: space, tab, newline, carriage return, vertical tab,
form feed). -/
def isPyWS (c : Char) : Bool :=
  c == ' ' || c == '\t' || c == '\n' || c == '\r' ||
    c == Char.ofNat 11 || c == Char.ofNat 12

/-- `str.strip()`: drop leading and trailing whitespace. -/
def stripList (l : Str) : Str :=
  (((l.dropWhile isPyWS).reverse).dropWhile isPyWS).reverse

/-- The delimiter class of `re.split(r'[\t,]', line)`: a tab or a comma. -/
def isDelim (c : Char) : Bool :=
  c == '\t' || c == ','

/-- Extend the first piece of a split result with one more character. -/
def consHead (c : Char) : List Str → List Str
  | [] => [[c]]
  | r :: rs => (c :: r) :: rs

/-- Split a string at every character satisfying `p`, keeping empty
pieces, as Python `str.split(sep)` and `re.split` on a single-character
class do: the empty string splits to `[""]`, and consecutive separators
yield empty pieces. -/
def splitChars (p : Char → Bool) : Str → List Str
  | [] => [[]]
  | c :: t => if p c then [] :: splitChars p t else consHead c (splitChars p t)

/-- The per-line body of `convert_to_table`:
`row = re.split(r'[\t,]', line)`; `row = [item.strip() for item in row if item.strip()]`. -/
def parseLine (line : Str) : List Str :=
  ((splitChars isDelim line).map stripList).filter (fun f => !f.isEmpty)

/-- The accumulation loop of `convert_to_table`: append the parsed row
for each line unless it is empty. -/
def tableLoop : List Str → List (List Str)
  | [] => []
  | line :: rest =>
    if (parseLine line).isEmpty then tableLoop rest
    else parseLine line :: tableLoop rest

/-- `convert_to_table(text)` from `app.py` (identical in
`image_to_text.py`): strip the text, split into lines, split each line
on tabs and commas, trim fields, drop empty fields and empty rows. -/
def convert_to_table (text : Str) : List (List Str) :=
  tableLoop (splitChars (fun c => c == '\n') (stripList text))

/-- `load_saved_messages()`: the ledger file holds a JSON list of
identifiers; a missing file (`none`) reads as the empty list. -/
def load_saved_messages (store : Option (List Str)) : List Str :=
  store.getD []

/-- `save_message_id(message_id)`: reload the list, append the
identifier if absent and write the file back; if present, leave the
file untouched. -/
def save_message_id (store : Option (List Str)) (message_id : Str) :
    Option (List Str) :=
  let saved_messages := load_saved_messages store
  if message_id ∈ saved_messages then store
  else some (saved_messages ++ [message_id])

/-- Reply text of the success branch. -/
def successText : Str :=
  "画像からテキストを抽出し、スプレッドシートに保存しました。".toList

/-- Reply text of the extraction-failure branch. -/
def extractFailText : Str :=
  "テキストの抽出に失敗しました。".toList

/-- Reply text of the top-level exception handler. -/
def errorText : Str :=
  "処理中にエラーが発生しました。".toList

/-- An inbound image-message event. -/
structure Event where
  message_id : Str
  reply_token : Str

/-- Outcome of the external collaborators for one event: the HTTP
status of the media fetch, the result of `extract_text_from_image`
(`none` when the collaborator raised and the exception was caught and
mapped to `None`), whether `append_to_sheet` succeeds, and the
timestamp `datetime.now().strftime(...)` produces. -/
structure Env where
  fetchStatus : Nat
  extracted : Option Str
  sinkOk : Bool
  currentTime : Str

/-- Observable outcome of one `handle_image_message` call: texts of the
`reply_message` calls in order, the `values` argument of each
`append_to_sheet` call in order, the ledger file afterwards, and how
many media fetches and extraction calls were made. -/
structure HandlerResult where
  replies : List Str
  sinkCalls : List (List (List Str))
  store : Option (List Str)
  fetchCount : Nat
  extractCount : Nat
deriving DecidableEq

/-- The metadata row `[current_time, f"LINE Message ID: {message_id}"]`. -/
def metaRow (env : Env) (message_id : Str) : List Str :=
  [env.currentTime, "LINE Message ID: ".toList ++ message_id]

/-- `handle_image_message(event)` from `app.py`, over ledger file
`store` and collaborator outcomes `env`.  Control flow mirrors the
source: dedupe short-circuit; non-200 fetch raises into the top-level
handler (generic error reply, ledger untouched); Python truthiness
sends `None` and the empty string to the no-text branch; a sink
failure re-raises into the top-level handler before `save_message_id`
is reached; both the success and the no-text branch fall through to
`save_message_id`. -/
def handle_image_message (env : Env) (store : Option (List Str))
    (event : Event) : HandlerResult :=
  let message_id := event.message_id
  let saved_messages := load_saved_messages store
  if message_id ∈ saved_messages then
    { replies := [], sinkCalls := [], store := store,
      fetchCount := 0, extractCount := 0 }
  else if env.fetchStatus = 200 then
    match env.extracted with
    | some t =>
      if t.isEmpty then
        { replies := [extractFailText], sinkCalls := [],
          store := save_message_id store message_id,
          fetchCount := 1, extractCount := 1 }
      else
        let table_data := convert_to_table t
        let values := metaRow env message_id :: table_data
        if env.sinkOk then
          { replies := [successText], sinkCalls := [values],
            store := save_message_id store message_id,
            fetchCount := 1, extractCount := 1 }
        else
          { replies := [errorText], sinkCalls := [values], store := store,
            fetchCount := 1, extractCount := 1 }
    | none =>
        { replies := [extractFailText], sinkCalls := [],
          store := save_message_id store message_id,
          fetchCount := 1, extractCount := 1 }
  else
    { replies := [errorText], sinkCalls := [], store := store,
      fetchCount := 1, extractCount := 0 }

end App

namespace App

/-! ### Basic facts about `splitChars` -/

theorem consHead_ne_nil (c : Char) (S : List Str) : consHead c S ≠ [] := by
  cases S <;> simp [consHead]

theorem splitChars_ne_nil (p : Char → Bool) (l : Str) : splitChars p l ≠ [] := by
  induction l with
  | nil => simp [splitChars]
  | cons c t ih =>
    simp only [splitChars]
    split
    · simp
    · exact consHead_ne_nil c _

/-- No piece of the split contains a separator character. -/
theorem mem_splitChars_not (p : Char → Bool) :
    ∀ (l : Str) (f : Str), f ∈ splitChars p l → ∀ c ∈ f, p c = false := by
  intro l
  induction l with
  | nil =>
    intro f hf c hc
    simp [splitChars] at hf
    subst hf
    simp at hc
  | cons a t ih =>
    intro f hf c hc
    simp only [splitChars] at hf
    by_cases hp : p a = true
    · rw [if_pos hp] at hf
      rcases List.mem_cons.mp hf with h | h
      · subst h; simp at hc
      · exact ih f h c hc
    · rw [if_neg hp] at hf
      rcases S : splitChars p t with _ | ⟨r, rs⟩
      · exact absurd S (splitChars_ne_nil p t)
      · rw [S, consHead] at hf
        have hr : r ∈ splitChars p t := by rw [S]; exact List.mem_cons_self r rs
        rcases List.mem_cons.mp hf with h | h
        · subst h
          rcases List.mem_cons.mp hc with h2 | h2
          · subst h2; exact Bool.not_eq_true _ ▸ (by simpa using hp)
          · exact ih r hr c h2
        · exact ih f (by rw [S]; exact List.mem_cons_of_mem r h) c hc

/-- Every character of a piece is a character of the split input. -/
theorem mem_splitChars_mem (p : Char → Bool) :
    ∀ (l : Str) (f : Str), f ∈ splitChars p l → ∀ c ∈ f, c ∈ l := by
  intro l
  induction l with
  | nil =>
    intro f hf c hc
    simp [splitChars] at hf
    subst hf
    simp at hc
  | cons a t ih =>
    intro f hf c hc
    simp only [splitChars] at hf
    by_cases hp : p a = true
    · rw [if_pos hp] at hf
      rcases List.mem_cons.mp hf with h | h
      · subst h; simp at hc
      · exact List.mem_cons_of_mem a (ih f h c hc)
    · rw [if_neg hp] at hf
      rcases S : splitChars p t with _ | ⟨r, rs⟩
      · exact absurd S (splitChars_ne_nil p t)
      · rw [S, consHead] at hf
        have hr : r ∈ splitChars p t := by rw [S]; exact List.mem_cons_self r rs
        rcases List.mem_cons.mp hf with h | h
        · subst h
          rcases List.mem_cons.mp hc with h2 | h2
          · subst h2; exact List.mem_cons_self c t
          · exact List.mem_cons_of_mem a (ih r hr c h2)
        · exact List.mem_cons_of_mem a
            (ih f (by rw [S]; exact List.mem_cons_of_mem r h) c hc)

/-! ### Facts about `dropWhile` and `stripList` -/

theorem head?_dropWhile_false {p : Char → Bool} {l : Str} {c : Char}
    (h : (l.dropWhile p).head? = some c) : p c = false := by
  have hne : l.dropWhile p ≠ [] := by
    intro e; rw [e] at h; simp at h
  have hh := List.head_dropWhile_not p l hne
  rw [List.head?_eq_head hne] at h
  injection h with h
  rw [← h]; exact hh

theorem getLast?_dropWhile (p : Char → Bool) :
    ∀ l : Str, l.dropWhile p ≠ [] → (l.dropWhile p).getLast? = l.getLast? := by
  intro l
  induction l with
  | nil => intro h; simp [List.dropWhile] at h
  | cons a t ih =>
    intro h
    rw [List.dropWhile_cons] at h ⊢
    by_cases hp : p a = true
    · rw [if_pos hp] at h ⊢
      rw [ih h]
      cases t with
      | nil => simp [List.dropWhile] at h
      | cons b t' => rw [List.getLast?_cons_cons]
    · rw [if_neg hp]

theorem mem_of_mem_dropWhile {p : Char → Bool} {l : Str} {a : Char}
    (h : a ∈ l.dropWhile p) : a ∈ l :=
  (List.dropWhile_sublist p).subset h

theorem mem_stripList {l : Str} {a : Char} (h : a ∈ stripList l) : a ∈ l := by
  unfold stripList at h
  rw [List.mem_reverse] at h
  have h2 := mem_of_mem_dropWhile h
  rw [List.mem_reverse] at h2
  exact mem_of_mem_dropWhile h2

theorem head?_stripList {l : Str} {c : Char}
    (h : (stripList l).head? = some c) : isPyWS c = false := by
  unfold stripList at h
  rw [List.head?_reverse] at h
  rcases e : ((l.dropWhile isPyWS).reverse).dropWhile isPyWS with _ | ⟨b, t⟩
  · rw [e] at h; simp at h
  · have hne : ((l.dropWhile isPyWS).reverse).dropWhile isPyWS ≠ [] := by
      rw [e]; simp
    rw [getLast?_dropWhile isPyWS _ hne, List.getLast?_reverse] at h
    exact head?_dropWhile_false h

theorem getLast?_stripList {l : Str} {c : Char}
    (h : (stripList l).getLast? = some c) : isPyWS c = false := by
  unfold stripList at h
  rw [List.getLast?_reverse] at h
  exact head?_dropWhile_false h

theorem dropWhile_eq_self_of_head (p : Char → Bool) (l : Str)
    (h : ∀ c, l.head? = some c → p c = false) : l.dropWhile p = l := by
  cases l with
  | nil => rfl
  | cons a t =>
    rw [List.dropWhile_cons, if_neg]
    simp [h a rfl]

theorem stripList_eq_self {l : Str}
    (h1 : ∀ c, l.head? = some c → isPyWS c = false)
    (h2 : ∀ c, l.getLast? = some c → isPyWS c = false) :
    stripList l = l := by
  unfold stripList
  rw [dropWhile_eq_self_of_head _ _ h1]
  rw [dropWhile_eq_self_of_head _ _
    (fun c hc => h2 c (by rwa [List.head?_reverse] at hc))]
  exact List.reverse_reverse l

theorem stripList_idem (l : Str) : stripList (stripList l) = stripList l :=
  stripList_eq_self (fun _ h => head?_stripList h) (fun _ h => getLast?_stripList h)


/-! ### Splitting an append, and joining fields back -/

/-- Prepend characters to the first piece of a split result. -/
def prependHead (l : Str) : List Str → List Str
  | [] => [l]
  | r :: rs => (l ++ r) :: rs

theorem splitChars_append (p : Char → Bool) :
    ∀ l m : Str, (∀ c ∈ l, p c = false) →
      splitChars p (l ++ m) = prependHead l (splitChars p m) := by
  intro l
  induction l with
  | nil =>
    intro m _
    rcases e : splitChars p m with _ | ⟨r, rs⟩
    · exact absurd e (splitChars_ne_nil p m)
    · simp [prependHead, e]
  | cons a t ih =>
    intro m hfree
    have ha : p a = false := hfree a (List.mem_cons_self a t)
    have ht : ∀ c ∈ t, p c = false := fun c hc => hfree c (List.mem_cons_of_mem a hc)
    show splitChars p (a :: (t ++ m)) = _
    simp only [splitChars]
    rw [if_neg (by simp [ha])]
    rw [ih m ht]
    rcases e : splitChars p m with _ | ⟨r, rs⟩
    · exact absurd e (splitChars_ne_nil p m)
    · simp [prependHead, consHead]

theorem splitChars_of_forall_not (p : Char → Bool) (l : Str)
    (h : ∀ c ∈ l, p c = false) : splitChars p l = [l] := by
  have h2 := splitChars_append p l [] h
  simpa [prependHead, splitChars] using h2

/-- `d.join(row)` for a one-character separator `d`. -/
def joinWith (d : Char) : List Str → Str
  | [] => []
  | [f] => f
  | f :: fs => f ++ d :: joinWith d fs

theorem splitChars_joinWith (p : Char → Bool) (d : Char) (hd : p d = true) :
    ∀ fields : List Str, fields ≠ [] →
      (∀ f ∈ fields, ∀ c ∈ f, p c = false) →
      splitChars p (joinWith d fields) = fields := by
  intro fields
  induction fields with
  | nil => intro h; exact absurd rfl h
  | cons f fs ih =>
    intro _ hfree
    have hffree : ∀ c ∈ f, p c = false := hfree f (List.mem_cons_self f fs)
    cases fs with
    | nil =>
      show splitChars p (joinWith d [f]) = [f]
      simpa [joinWith] using splitChars_of_forall_not p f hffree
    | cons g gs =>
      have hrest : ∀ x ∈ g :: gs, ∀ c ∈ x, p c = false :=
        fun x hx => hfree x (List.mem_cons_of_mem f hx)
      have hjoin : joinWith d (f :: g :: gs) = f ++ d :: joinWith d (g :: gs) := rfl
      rw [hjoin, splitChars_append p f _ hffree]
      have h2 : splitChars p (d :: joinWith d (g :: gs)) =
          [] :: splitChars p (joinWith d (g :: gs)) := by
        simp [splitChars, hd]
      rw [h2, ih (by simp) hrest]
      simp [prependHead]

theorem mem_joinWith (d : Char) :
    ∀ (fields : List Str) (c : Char), c ∈ joinWith d fields →
      c = d ∨ ∃ f ∈ fields, c ∈ f := by
  intro fields
  induction fields with
  | nil => intro c hc; simp [joinWith] at hc
  | cons f fs ih =>
    intro c hc
    cases fs with
    | nil =>
      right
      exact ⟨f, List.mem_cons_self f [], by simpa [joinWith] using hc⟩
    | cons g gs =>
      have hj : joinWith d (f :: g :: gs) = f ++ d :: joinWith d (g :: gs) := rfl
      rw [hj, List.mem_append] at hc
      rcases hc with h | h
      · exact Or.inr ⟨f, List.mem_cons_self f _, h⟩
      · rcases List.mem_cons.mp h with h2 | h2
        · exact Or.inl h2
        · rcases ih c h2 with h3 | ⟨x, hx, hcx⟩
          · exact Or.inl h3
          · exact Or.inr ⟨x, List.mem_cons_of_mem f hx, hcx⟩

theorem head?_joinWith (d : Char) (f : Str) (fs : List Str) (hf : f ≠ []) :
    (joinWith d (f :: fs)).head? = f.head? := by
  cases fs with
  | nil => rfl
  | cons g gs =>
    have hj : joinWith d (f :: g :: gs) = f ++ d :: joinWith d (g :: gs) := rfl
    rw [hj]
    cases f with
    | nil => exact absurd rfl hf
    | cons a t => rfl

theorem getLast?_cons_ne_nil (a : Char) (y : Str) (h : y ≠ []) :
    (a :: y).getLast? = y.getLast? := by
  cases y with
  | nil => exact absurd rfl h
  | cons b t => exact List.getLast?_cons_cons

theorem getLast?_append_ne_nil (l m : Str) (h : m ≠ []) :
    (l ++ m).getLast? = m.getLast? := by
  rw [List.getLast?_append]
  rcases e : m.getLast? with _ | c
  · rcases m with _ | ⟨b, t⟩
    · exact absurd rfl h
    · have : (b :: t).getLast? = some ((b :: t).getLast (by simp)) :=
        List.getLast?_eq_getLast (b :: t) (by simp)
      rw [e] at this
      exact absurd this (by simp)
  · rfl

theorem joinWith_cons_cons_ne_nil (d : Char) (f g : Str) (gs : List Str) :
    joinWith d (f :: g :: gs) ≠ [] := by
  have hj : joinWith d (f :: g :: gs) = f ++ d :: joinWith d (g :: gs) := rfl
  rw [hj]
  simp

theorem getLast?_joinWith_not_ws (d : Char) :
    ∀ (fs : List Str) (f : Str),
      (∀ x ∈ f :: fs, x ≠ [] ∧ stripList x = x) →
      ∀ c, (joinWith d (f :: fs)).getLast? = some c → isPyWS c = false := by
  intro fs
  induction fs with
  | nil =>
    intro f hx c hc
    have hs := (hx f (List.mem_cons_self f [])).2
    have : (stripList f).getLast? = some c := by
      rw [hs]; simpa [joinWith] using hc
    exact getLast?_stripList this
  | cons g gs ih =>
    intro f hx c hc
    have hj : joinWith d (f :: g :: gs) = f ++ d :: joinWith d (g :: gs) := rfl
    rw [hj, getLast?_append_ne_nil _ _ (by simp)] at hc
    have hgne : joinWith d (g :: gs) ≠ [] := by
      cases gs with
      | nil => simpa [joinWith] using (hx g (by simp)).1
      | cons h hs => exact joinWith_cons_cons_ne_nil d g h hs
    rw [getLast?_cons_ne_nil d _ hgne] at hc
    exact ih g (fun x hxm => hx x (List.mem_cons_of_mem f hxm)) c hc


/-! ### Characterizing rows and fields of `convert_to_table` -/

theorem mem_parseLine {line : Str} {f : Str} (h : f ∈ parseLine line) :
    f ≠ [] ∧ ∃ x ∈ splitChars isDelim line, f = stripList x := by
  unfold parseLine at h
  rw [List.mem_filter] at h
  obtain ⟨hmem, hne⟩ := h
  rw [List.mem_map] at hmem
  obtain ⟨x, hx, hfx⟩ := hmem
  refine ⟨?_, x, hx, hfx.symm⟩
  intro e
  rw [e] at hne
  simp at hne

theorem mem_tableLoop :
    ∀ (lines : List Str) (row : List Str), row ∈ tableLoop lines →
      row ≠ [] ∧ ∃ line ∈ lines, parseLine line = row := by
  intro lines
  induction lines with
  | nil => intro row h; simp [tableLoop] at h
  | cons line rest ih =>
    intro row h
    simp only [tableLoop] at h
    by_cases he : (parseLine line).isEmpty = true
    · rw [if_pos he] at h
      obtain ⟨hne, l, hl, hpl⟩ := ih row h
      exact ⟨hne, l, List.mem_cons_of_mem line hl, hpl⟩
    · rw [if_neg he] at h
      rcases List.mem_cons.mp h with h2 | h2
      · subst h2
        refine ⟨?_, line, List.mem_cons_self line rest, rfl⟩
        intro e
        rw [e] at he
        simp at he
      · obtain ⟨hne, l, hl, hpl⟩ := ih row h2
        exact ⟨hne, l, List.mem_cons_of_mem line hl, hpl⟩

/-- Every field of every row of `convert_to_table` is non-empty,
already stripped, and contains neither delimiter nor newline
characters. -/
theorem row_fields_spec {text : Str} {row : List Str} {f : Str}
    (hrow : row ∈ convert_to_table text) (hf : f ∈ row) :
    f ≠ [] ∧ stripList f = f ∧ (∀ c ∈ f, isDelim c = false) ∧
      (∀ c ∈ f, (c == '\n') = false) := by
  obtain ⟨_, line, hline, hpl⟩ := mem_tableLoop _ row hrow
  rw [← hpl] at hf
  obtain ⟨hfne, x, hx, hfx⟩ := mem_parseLine hf
  have hstrip : stripList f = f := by rw [hfx]; exact stripList_idem x
  have hmemx : ∀ c ∈ f, c ∈ x := fun c hc => mem_stripList (hfx ▸ hc)
  refine ⟨hfne, hstrip, ?_, ?_⟩
  · intro c hc
    exact mem_splitChars_not isDelim line x hx c (hmemx c hc)
  · intro c hc
    have hcl : c ∈ line := mem_splitChars_mem isDelim line x hx c (hmemx c hc)
    exact mem_splitChars_not (fun a => a == '\n') (stripList text) line hline c hcl

/-- Every row of `convert_to_table` is non-empty with non-empty fields. -/
theorem row_spec {text : Str} {row : List Str}
    (hrow : row ∈ convert_to_table text) :
    row ≠ [] ∧ ∀ f ∈ row, f ≠ [] := by
  obtain ⟨hne, _, _, hpl⟩ := mem_tableLoop _ row hrow
  exact ⟨hne, fun f hf => (mem_parseLine (hpl ▸ hf)).1⟩


/-! ### Claim theorems about the parser -/

/-- C7: `convert_to_table` is a total deterministic pure function (a
Lean `def` on every string input); every row it produces contains at
least one non-empty field (indeed the row is non-empty and all its
fields are non-empty), and a source line that yields zero non-empty
fields after splitting and trimming produces no row at all. -/
theorem claim_C7_parser_total_rows (text : Str) :
    (∀ row ∈ convert_to_table text, row ≠ [] ∧ ∀ f ∈ row, f ≠ []) ∧
    (∀ line rest, parseLine line = [] →
      tableLoop (line :: rest) = tableLoop rest) := by
  constructor
  · intro row hrow
    exact row_spec hrow
  · intro line rest h
    simp [tableLoop, h]

theorem claim_C7_witness :
    (([['a'], ['b']] : List Str) ≠ [] ∧
      ∀ f ∈ ([['a'], ['b']] : List Str), f ≠ []) ∧
    tableLoop ([' '] :: [['x']]) = tableLoop [['x']] :=
  ⟨(claim_C7_parser_total_rows ['a', ',', 'b']).1 [['a'], ['b']] (by decide),
   (claim_C7_parser_total_rows []).2 [' '] [['x']] (by decide)⟩

/-- C10: every field of every row produced by `convert_to_table` is
invariant under whitespace trimming and contains no comma, tab or
newline character. -/
theorem claim_C10_field_invariants (text : Str) (row : List Str) (f : Str)
    (h1 : row ∈ convert_to_table text) (h2 : f ∈ row) :
    stripList f = f ∧ ',' ∉ f ∧ '\t' ∉ f ∧ '\n' ∉ f := by
  obtain ⟨_, hstrip, hdelim, hnl⟩ := row_fields_spec h1 h2
  refine ⟨hstrip, ?_, ?_, ?_⟩
  · intro hc
    have := hdelim ',' hc
    simp [isDelim] at this
  · intro hc
    have := hdelim '\t' hc
    simp [isDelim] at this
  · intro hc
    have := hnl '\n' hc
    simp at this

theorem claim_C10_witness :
    stripList ['a'] = ['a'] ∧ ',' ∉ (['a'] : Str) ∧
      '\t' ∉ (['a'] : Str) ∧ '\n' ∉ (['a'] : Str) :=
  claim_C10_field_invariants ['a', ',', 'b'] [['a'], ['b']] ['a']
    (by decide) (by decide)

/-- C8: the parser is idempotent on its own output: joining any
produced row's fields with a single comma or tab and re-parsing
reproduces exactly that one row. -/
theorem claim_C8_parser_idempotent (text : Str) (row : List Str) (d : Char)
    (hrow : row ∈ convert_to_table text) (hd : d = ',' ∨ d = '\t') :
    convert_to_table (joinWith d row) = [row] := by
  have P : ∀ f ∈ row, f ≠ [] ∧ stripList f = f ∧
      (∀ c ∈ f, isDelim c = false) ∧ (∀ c ∈ f, (c == '\n') = false) :=
    fun f hf => row_fields_spec hrow hf
  have hrne : row ≠ [] := (row_spec hrow).1
  have hdel : isDelim d = true := by
    rcases hd with rfl | rfl <;> decide
  have hnld : (d == '\n') = false := by
    rcases hd with rfl | rfl <;> decide
  have hjoin_nl : ∀ c ∈ joinWith d row, (c == '\n') = false := by
    intro c hc
    rcases mem_joinWith d row c hc with rfl | ⟨f, hf, hcf⟩
    · exact hnld
    · exact (P f hf).2.2.2 c hcf
  have hstrip_join : stripList (joinWith d row) = joinWith d row := by
    rcases row with _ | ⟨f, fs⟩
    · exact absurd rfl hrne
    · have hf := P f (List.mem_cons_self f fs)
      apply stripList_eq_self
      · intro c hc
        rw [head?_joinWith d f fs hf.1, ← hf.2.1] at hc
        exact head?_stripList hc
      · exact getLast?_joinWith_not_ws d fs f
          (fun x hx => ⟨(P x hx).1, (P x hx).2.1⟩)
  have hpl : parseLine (joinWith d row) = row := by
    unfold parseLine
    rw [splitChars_joinWith isDelim d hdel row hrne
      (fun f hf => (P f hf).2.2.1)]
    rw [List.map_congr_left (fun f hf => (P f hf).2.1), List.map_id']
    exact List.filter_eq_self.mpr
      (fun f hf => by simp [List.isEmpty_iff, (P f hf).1])
  unfold convert_to_table
  rw [hstrip_join, splitChars_of_forall_not _ _ hjoin_nl]
  simp [tableLoop, hpl, List.isEmpty_iff, hrne]

theorem claim_C8_witness :
    convert_to_table (joinWith ',' [['a'], ['b']]) = [[['a'], ['b']]] :=
  claim_C8_parser_idempotent ['a', ',', 'b'] [['a'], ['b']] ','
    (by decide) (Or.inl rfl)


/-! ### Ledger lemmas -/

theorem load_save_of_not_mem {s : Option (List Str)} {id : Str}
    (h : id ∉ load_saved_messages s) :
    load_saved_messages (save_message_id s id) =
      load_saved_messages s ++ [id] := by
  show (if id ∈ load_saved_messages s then s
      else some (load_saved_messages s ++ [id])).getD [] = _
  rw [if_neg h]
  rfl

theorem mem_load_save (s : Option (List Str)) (id : Str) :
    id ∈ load_saved_messages (save_message_id s id) := by
  by_cases h : id ∈ load_saved_messages s
  · simp [save_message_id, h]
  · rw [load_save_of_not_mem h]
    simp

theorem save_idem (s : Option (List Str)) (id : Str) :
    save_message_id (save_message_id s id) id = save_message_id s id := by
  show (if id ∈ load_saved_messages (save_message_id s id) then
      save_message_id s id
    else some (load_saved_messages (save_message_id s id) ++ [id])) =
      save_message_id s id
  rw [if_pos (mem_load_save s id)]

theorem not_mem_load_foldl (id : Str) :
    ∀ (ids : List Str) (s : Option (List Str)), id ∉ ids →
      id ∉ load_saved_messages s →
      id ∉ load_saved_messages (ids.foldl save_message_id s) := by
  intro ids
  induction ids with
  | nil => intro s _ hs; exact hs
  | cons i t ih =>
    intro s hmem hs
    have hne : id ≠ i := fun e => hmem (e ▸ List.mem_cons_self i t)
    have ht : id ∉ t := fun e => hmem (List.mem_cons_of_mem i e)
    show id ∉ load_saved_messages (t.foldl save_message_id (save_message_id s i))
    apply ih _ ht
    by_cases h : i ∈ load_saved_messages s
    · simpa [save_message_id, h] using hs
    · rw [load_save_of_not_mem h]
      simp [hs, hne]

theorem save_nodup (s : Option (List Str)) (id : Str)
    (h : (load_saved_messages s).Nodup) :
    (load_saved_messages (save_message_id s id)).Nodup := by
  by_cases hm : id ∈ load_saved_messages s
  · simpa [save_message_id, hm] using h
  · rw [load_save_of_not_mem hm]
    rw [List.nodup_append]
    exact ⟨h, List.nodup_singleton id,
      fun a ha hb => hm (by rwa [List.mem_singleton.mp hb] at ha)⟩

/-- C6: `has(id)` (list membership after `load_saved_messages`) is
false on a non-existent backing store and after any sequence of
`record` calls for other identifiers; it is true after
`save_message_id(id)`; and `save_message_id` is idempotent and never
duplicates an entry. -/
theorem claim_C6_ledger (id : Str) (s : Option (List Str)) (ids : List Str)
    (h : id ∉ ids) :
    id ∉ load_saved_messages none ∧
    id ∉ load_saved_messages (ids.foldl save_message_id none) ∧
    id ∈ load_saved_messages (save_message_id s id) ∧
    save_message_id (save_message_id s id) id = save_message_id s id ∧
    ((load_saved_messages s).Nodup →
      (load_saved_messages (save_message_id s id)).Nodup) := by
  refine ⟨by simp [load_saved_messages], ?_, mem_load_save s id,
    save_idem s id, save_nodup s id⟩
  exact not_mem_load_foldl id ids none h (by simp [load_saved_messages])

theorem claim_C6_witness :
    (['m'] : Str) ∉ load_saved_messages none ∧
    (['m'] : Str) ∉
      load_saved_messages (List.foldl save_message_id none [['a']]) ∧
    (['m'] : Str) ∈ load_saved_messages (save_message_id (some [['x']]) ['m']) ∧
    save_message_id (save_message_id (some [['x']]) ['m']) ['m'] =
      save_message_id (some [['x']]) ['m'] ∧
    ((load_saved_messages (some [['x']])).Nodup →
      (load_saved_messages (save_message_id (some [['x']]) ['m'])).Nodup) :=
  claim_C6_ledger ['m'] (some [['x']]) [['a']] (by decide)


/-! ### Claim theorems about the event handler -/

/-- C1: when the message identifier is already in the ledger the
handler is a silent no-op: no media fetch, no extraction call, no sink
call, no reply, ledger unchanged. -/
theorem claim_C1_dedupe_silent (env : Env) (store : Option (List Str))
    (event : Event) (h : event.message_id ∈ load_saved_messages store) :
    (handle_image_message env store event).replies = [] ∧
    (handle_image_message env store event).sinkCalls = [] ∧
    (handle_image_message env store event).fetchCount = 0 ∧
    (handle_image_message env store event).extractCount = 0 ∧
    (handle_image_message env store event).store = store := by
  simp [handle_image_message, h]

theorem claim_C1_witness :
    (handle_image_message ⟨200, some ['a'], true, ['T']⟩ (some [['m']])
      ⟨['m'], ['r']⟩).replies = [] ∧
    (handle_image_message ⟨200, some ['a'], true, ['T']⟩ (some [['m']])
      ⟨['m'], ['r']⟩).sinkCalls = [] ∧
    (handle_image_message ⟨200, some ['a'], true, ['T']⟩ (some [['m']])
      ⟨['m'], ['r']⟩).fetchCount = 0 ∧
    (handle_image_message ⟨200, some ['a'], true, ['T']⟩ (some [['m']])
      ⟨['m'], ['r']⟩).extractCount = 0 ∧
    (handle_image_message ⟨200, some ['a'], true, ['T']⟩ (some [['m']])
      ⟨['m'], ['r']⟩).store = some [['m']] :=
  claim_C1_dedupe_silent ⟨200, some ['a'], true, ['T']⟩ (some [['m']])
    ⟨['m'], ['r']⟩ (by decide)

/-- C2: on a first delivery where the fetch succeeds, extraction
returns non-empty text parsing into at least one row and the sink
append succeeds, the handler sends exactly the one success reply,
records the identifier, and makes exactly one sink call whose values
are the metadata row followed by the parsed rows in source order. -/
theorem claim_C2_first_delivery_success (env : Env)
    (store : Option (List Str)) (event : Event) (t : Str)
    (h1 : event.message_id ∉ load_saved_messages store)
    (h2 : env.fetchStatus = 200)
    (h3 : env.extracted = some t)
    (h4 : t ≠ [])
    (_h5 : convert_to_table t ≠ [])
    (h6 : env.sinkOk = true) :
    (handle_image_message env store event).replies = [successText] ∧
    (handle_image_message env store event).sinkCalls =
      [metaRow env event.message_id :: convert_to_table t] ∧
    (handle_image_message env store event).store =
      some (load_saved_messages store ++ [event.message_id]) ∧
    event.message_id ∈
      load_saved_messages (handle_image_message env store event).store := by
  have hie : t.isEmpty = false := by simp [List.isEmpty_iff, h4]
  have hsave : save_message_id store event.message_id =
      some (load_saved_messages store ++ [event.message_id]) := by
    show (if event.message_id ∈ load_saved_messages store then store
      else some (load_saved_messages store ++ [event.message_id])) = _
    rw [if_neg h1]
  have hload : ∀ l : List Str, load_saved_messages (some l) = l := fun _ => rfl
  refine ⟨?_, ?_, ?_, ?_⟩ <;>
    simp [handle_image_message, h1, h2, h3, h6, hie, hsave, hload]

theorem claim_C2_witness :
    (handle_image_message ⟨200, some ['a'], true, ['T']⟩ none
      ⟨['m'], ['r']⟩).replies = [successText] ∧
    (handle_image_message ⟨200, some ['a'], true, ['T']⟩ none
      ⟨['m'], ['r']⟩).sinkCalls =
      [metaRow ⟨200, some ['a'], true, ['T']⟩ ['m'] :: convert_to_table ['a']] ∧
    (handle_image_message ⟨200, some ['a'], true, ['T']⟩ none
      ⟨['m'], ['r']⟩).store = some (load_saved_messages none ++ [['m']]) ∧
    (['m'] : Str) ∈ load_saved_messages
      (handle_image_message ⟨200, some ['a'], true, ['T']⟩ none
        ⟨['m'], ['r']⟩).store :=
  claim_C2_first_delivery_success ⟨200, some ['a'], true, ['T']⟩ none
    ⟨['m'], ['r']⟩ ['a'] (by decide) rfl rfl (by decide) (by decide) rfl

/-- C3: when the sink append fails, the handler sends exactly the one
generic error reply and the ledger is unchanged, so the identifier is
not recorded and a redelivery would reprocess the event. -/
theorem claim_C3_sink_failure (env : Env) (store : Option (List Str))
    (event : Event) (t : Str)
    (h1 : event.message_id ∉ load_saved_messages store)
    (h2 : env.fetchStatus = 200)
    (h3 : env.extracted = some t)
    (h4 : t ≠ [])
    (h5 : env.sinkOk = false) :
    (handle_image_message env store event).replies = [errorText] ∧
    (handle_image_message env store event).store = store ∧
    event.message_id ∉
      load_saved_messages (handle_image_message env store event).store := by
  have hie : t.isEmpty = false := by simp [List.isEmpty_iff, h4]
  refine ⟨?_, ?_, ?_⟩ <;> simp [handle_image_message, h1, h2, h3, h5, hie]

theorem claim_C3_witness :
    (handle_image_message ⟨200, some ['a'], false, ['T']⟩ none
      ⟨['m'], ['r']⟩).replies = [errorText] ∧
    (handle_image_message ⟨200, some ['a'], false, ['T']⟩ none
      ⟨['m'], ['r']⟩).store = none ∧
    (['m'] : Str) ∉ load_saved_messages
      (handle_image_message ⟨200, some ['a'], false, ['T']⟩ none
        ⟨['m'], ['r']⟩).store :=
  claim_C3_sink_failure ⟨200, some ['a'], false, ['T']⟩ none
    ⟨['m'], ['r']⟩ ['a'] (by decide) rfl rfl (by decide) rfl

/-- C4: when extraction yields no text (`None` from the caught
collaborator failure, or the empty string, both falsy in Python), the
handler sends exactly the one "extraction failed" reply, records the
identifier, and never calls the sink. -/
theorem claim_C4_no_text (env : Env) (store : Option (List Str))
    (event : Event)
    (h1 : event.message_id ∉ load_saved_messages store)
    (h2 : env.fetchStatus = 200)
    (h3 : env.extracted = none ∨ env.extracted = some []) :
    (handle_image_message env store event).replies = [extractFailText] ∧
    (handle_image_message env store event).sinkCalls = [] ∧
    event.message_id ∈
      load_saved_messages (handle_image_message env store event).store := by
  rcases h3 with h3 | h3 <;>
    refine ⟨?_, ?_, ?_⟩ <;>
      simp [handle_image_message, h1, h2, h3, mem_load_save]

theorem claim_C4_witness :
    (handle_image_message ⟨200, none, true, ['T']⟩ none
      ⟨['m'], ['r']⟩).replies = [extractFailText] ∧
    (handle_image_message ⟨200, none, true, ['T']⟩ none
      ⟨['m'], ['r']⟩).sinkCalls = [] ∧
    (['m'] : Str) ∈ load_saved_messages
      (handle_image_message ⟨200, none, true, ['T']⟩ none
        ⟨['m'], ['r']⟩).store :=
  claim_C4_no_text ⟨200, none, true, ['T']⟩ none ⟨['m'], ['r']⟩
    (by decide) rfl (Or.inl rfl)

/-- C5: every inbound event yields exactly one user-facing reply —
one of the success, extraction-failed or generic-error texts — except
the dedupe short-circuit, which yields none; no path sends two. -/
theorem claim_C5_single_reply (env : Env) (store : Option (List Str))
    (event : Event) :
    (handle_image_message env store event).replies.length =
      (if event.message_id ∈ load_saved_messages store then 0 else 1) ∧
    ((handle_image_message env store event).replies = [] ∨
     (handle_image_message env store event).replies = [successText] ∨
     (handle_image_message env store event).replies = [extractFailText] ∨
     (handle_image_message env store event).replies = [errorText]) := by
  by_cases h : event.message_id ∈ load_saved_messages store
  · simp [handle_image_message, h]
  · by_cases hf : env.fetchStatus = 200
    · rcases e : env.extracted with _ | t
      · simp [handle_image_message, h, hf, e]
      · by_cases ht : t.isEmpty
        · simp [handle_image_message, h, hf, e, ht]
        · by_cases hs : env.sinkOk
          · simp [handle_image_message, h, hf, e, ht, hs]
          · simp [handle_image_message, h, hf, e, ht, hs]
    · simp [handle_image_message, h, hf]

/-- C9: extraction text that parses into zero rows (e.g. pure
whitespace, which is still truthy) leads to a single sink call holding
only the metadata row, and the success reply. -/
theorem claim_C9_metadata_only (env : Env) (store : Option (List Str))
    (event : Event) (t : Str)
    (h1 : event.message_id ∉ load_saved_messages store)
    (h2 : env.fetchStatus = 200)
    (h3 : env.extracted = some t)
    (h4 : t ≠ [])
    (h5 : convert_to_table t = [])
    (h6 : env.sinkOk = true) :
    (handle_image_message env store event).sinkCalls =
      [[metaRow env event.message_id]] ∧
    (handle_image_message env store event).replies = [successText] := by
  have hie : t.isEmpty = false := by simp [List.isEmpty_iff, h4]
  refine ⟨?_, ?_⟩ <;>
    simp [handle_image_message, h1, h2, h3, h6, hie, h5]

theorem claim_C9_witness :
    (handle_image_message ⟨200, some [' '], true, ['T']⟩ none
      ⟨['m'], ['r']⟩).sinkCalls =
      [[metaRow ⟨200, some [' '], true, ['T']⟩ ['m']]] ∧
    (handle_image_message ⟨200, some [' '], true, ['T']⟩ none
      ⟨['m'], ['r']⟩).replies = [successText] :=
  claim_C9_metadata_only ⟨200, some [' '], true, ['T']⟩ none
    ⟨['m'], ['r']⟩ [' '] (by decide) rfl rfl (by decide) (by decide) rfl

end App
